import Mathlib

/-!
Shallow embedding of the ClauseCraft document tool layer
(`executeDocSearch`, `executeDocRead`, `executeDocEdit` and the data model
from the parser types module), together with proofs of the specified
properties of those operations.

Modelling conventions:
* JavaScript `number` fields (`lineNumber`, `pageNumber`, `score`,
  `metadata.totalLines`, …) are modelled as `ℚ`; the only non-integer
  values the code produces are the temporary `n + 0.5` line numbers used
  during `insert`, which are exact in ℚ just as they are in binary
  floating point.
* JavaScript strings are Lean `String`s; `toLowerCase` is modelled by
  mapping `Char.toLower`, `trim` by `String.trim`, and `includes` by a
  contiguous-substring test on the character lists.
* `Array.prototype.sort` with the comparator `(a, b) => b.score - a.score`
  is required by ECMAScript to be a stable sort consistent with the
  comparator, so it is modelled by the stable `List.insertionSort` with
  the corresponding relation.
* The in-place mutation of the `Document` is modelled by returning the
  updated document next to the `EditResult`.
* The JavaScript falsiness test `!params.newText` is true for both a
  missing `newText` and the empty string; `params.newText || ''` is the
  corresponding coalescing read.
-/

namespace ClauseCraft

/-- One addressable line of the document (`Line` in `types.ts`). -/
structure Line where
  lineNumber : ℚ
  text : String
  pageNumber : ℚ
  isLocked : Bool
  isPlaceholder : Bool
deriving Repr, DecidableEq

/-- Document metadata (`DocumentMetadata` in `types.ts`); the `uploadedAt`
date is modelled as an opaque rational timestamp. -/
structure DocumentMetadata where
  totalLines : ℚ
  totalPages : ℚ
  format : String
  fileName : Option String
  fileSize : Option ℚ
  uploadedAt : Option ℚ
deriving Repr, DecidableEq

/-- The line store (`Document` in `types.ts`). -/
structure Document where
  id : String
  lines : List Line
  metadata : DocumentMetadata
deriving Repr, DecidableEq

/-- One `doc_search` hit (`SearchResult` in `types.ts`). -/
structure SearchResult where
  lineNumber : ℚ
  text : String
  score : ℚ
deriving Repr, DecidableEq

/-- Result shape of `executeDocRead`. -/
structure ReadOutcome where
  success : Bool
  lines : List Line
  error : Option String
deriving Repr, DecidableEq

/-- Arguments of `doc_edit` (`EditParams` in `types.ts`); `operation`
stays a string because the executor dispatches on the string and has an
`Unknown operation` default branch. -/
structure EditParams where
  operation : String
  lines : List ℚ
  newText : Option String
deriving Repr, DecidableEq

/-- Result shape of `executeDocEdit` (`EditResult` in `types.ts`). -/
structure EditResult where
  success : Bool
  modifiedLines : List ℚ
  error : Option String
deriving Repr, DecidableEq

/-- Model of JavaScript `String.prototype.toLowerCase`. -/
def jsLower (s : String) : String :=
  ⟨s.toList.map Char.toLower⟩

/-- Model of JavaScript `String.prototype.trim`: strip leading and
trailing whitespace. -/
def jsTrim (s : String) : String :=
  ⟨((s.toList.dropWhile Char.isWhitespace).reverse.dropWhile
      Char.isWhitespace).reverse⟩

/-- Contiguous-sublist prefix test used by `strIncludes`. -/
def isPrefixB : List Char → List Char → Bool
  | [], _ => true
  | _ :: _, [] => false
  | a :: as, b :: bs => a == b && isPrefixB as bs

/-- Contiguous-sublist test on character lists. -/
def isInfixB (needle : List Char) : List Char → Bool
  | [] => needle.isEmpty
  | c :: rest => isPrefixB needle (c :: rest) || isInfixB needle rest

/-- Model of JavaScript `haystack.includes(needle)`. -/
def strIncludes (haystack needle : String) : Bool :=
  isInfixB needle.toList haystack.toList

/-- Model of JavaScript `xs.slice(0, e)`: a non-negative `e` keeps the
first `e` elements, a negative `e` drops the last `|e|` elements. -/
def jsSliceTo {α : Type} (xs : List α) (e : Int) : List α :=
  if e < 0 then xs.take ((xs.length : Int) + e).toNat else xs.take e.toNat

/-- The numeric literal `0.5`, in a kernel-computable normal form. -/
def half : ℚ := mkRat 1 2

/-- The match list built by the search loop of `executeDocSearch`, in
document order: a hit for every line whose lowercased text contains the
lowercased query, scored `1.0` on a full case-insensitive match and `0.5`
otherwise. -/
def searchHits (queryLower : String) : List Line → List SearchResult
  | [] => []
  | line :: rest =>
    if strIncludes (jsLower line.text) queryLower then
      { lineNumber := line.lineNumber, text := line.text,
        score := if jsLower line.text = queryLower then 1 else half }
        :: searchHits queryLower rest
    else
      searchHits queryLower rest

/-- The comparator `(a, b) => b.score - a.score` as the ordering relation
of the stable sort: `a` may come before `b` iff `a.score ≥ b.score`. -/
def scoreGE (a b : SearchResult) : Prop :=
  b.score ≤ a.score

instance : DecidableRel scoreGE := fun a b => by
  unfold scoreGE; infer_instance

/-- The sorted, unsliced result list of `executeDocSearch`. -/
def searchSorted (query : String) (document : Document) : List SearchResult :=
  List.insertionSort scoreGE (searchHits (jsLower query) document.lines)

/-- Model of `executeDocSearch` from the tools module: empty or
whitespace-only queries short-circuit to `[]`; otherwise the hits are
collected, stably sorted by descending score, and sliced to
`Math.min(limit, 20)`. -/
def executeDocSearch (query : String) (document : Document) (limit : Int) :
    List SearchResult :=
  if jsTrim query = "" then []
  else jsSliceTo (searchSorted query document) (min limit 20)

/-- The declared default of the `limit` parameter of `executeDocSearch`. -/
def defaultSearchLimit : Int := 5

/-- The lookup loop of `executeDocRead`: for each requested number in
caller order, the first line with that `lineNumber`, misses skipped. -/
def readLines (document : Document) : List ℚ → List Line
  | [] => []
  | n :: rest =>
    match document.lines.find? (fun l => l.lineNumber == n) with
    | some line => line :: readLines document rest
    | none => readLines document rest

/-- Model of `executeDocRead` from the tools module. -/
def executeDocRead (lineNumbers : List ℚ) (document : Document) : ReadOutcome :=
  if lineNumbers = [] then
    { success := false, lines := [], error := some "No line numbers provided" }
  else
    { success := true, lines := readLines document lineNumbers, error := none }

/-- JavaScript falsiness of the optional `newText` argument: missing or
equal to the empty string. -/
def jsFalsyText : Option String → Bool
  | none => true
  | some s => s == ""

/-- Model of `params.newText || ''`. -/
def newTextValue : Option String → String
  | none => ""
  | some s => if s == "" then "" else s

/-- Decimal rendering of a line number for error messages (integral line
numbers render like JavaScript; the fractional temporaries never reach a
message). -/
def qToString (q : ℚ) : String :=
  if q.den = 1 then toString q.num
  else toString q.num ++ "/" ++ toString q.den

/-- The `Cannot edit locked lines: …` message of `executeDocEdit`. -/
def lockedMessage (ls : List ℚ) : String :=
  "Cannot edit locked lines: " ++ String.intercalate ", " (ls.map qToString)

/-- The locked-line scan of `executeDocEdit`: the targeted numbers whose
first matching line is locked (`line?.isLocked`). -/
def lockedTargets (params : EditParams) (document : Document) : List ℚ :=
  params.lines.filter (fun n =>
    match document.lines.find? (fun l => l.lineNumber == n) with
    | some l => l.isLocked
    | none => false)

/-- One step of the `replace` loop: `findIndex` by line number, then
assign `text`; `none` when the target resolves to no line. -/
def replaceFirstText (n : ℚ) (t : String) : List Line → Option (List Line)
  | [] => none
  | l :: rest =>
    if l.lineNumber == n then some ({ l with text := t } :: rest)
    else (replaceFirstText n t rest).map (l :: ·)

/-- The `replace` loop over the targeted numbers, returning the updated
lines and the `modifiedLines` log in target order. -/
def replaceLoop (t : String) : List ℚ → List Line → List Line × List ℚ
  | [], lines => (lines, [])
  | n :: rest, lines =>
    match replaceFirstText n t lines with
    | some lines' =>
      let p := replaceLoop t rest lines'
      (p.1, n :: p.2)
    | none => replaceLoop t rest lines

/-- One step of the `insert` loop: `findIndex` by line number, then
splice a new line at the next index, carrying the found line's
`pageNumber` and the temporary number `n + 0.5`. -/
def insertAfterTarget (n : ℚ) (t : String) : List Line → Option (List Line)
  | [] => none
  | l :: rest =>
    if l.lineNumber == n then
      some (l :: { lineNumber := n + half, text := t, pageNumber := l.pageNumber,
                   isLocked := false, isPlaceholder := false } :: rest)
    else (insertAfterTarget n t rest).map (l :: ·)

/-- The `insert` loop over the targeted numbers, returning the spliced
lines (before renumbering) and the `modifiedLines` log. -/
def insertLoop (t : String) : List ℚ → List Line → List Line × List ℚ
  | [], lines => (lines, [])
  | n :: rest, lines =>
    match insertAfterTarget n t lines with
    | some lines' =>
      let p := insertLoop t rest lines'
      (p.1, n :: p.2)
    | none => insertLoop t rest lines

/-- The renumbering pass `lines.forEach((line, index) => line.lineNumber
= index + 1)`, generalised to an arbitrary first number. -/
def renumberFrom (k : ℕ) : List Line → List Line
  | [] => []
  | l :: rest => { l with lineNumber := (k : ℚ) } :: renumberFrom (k + 1) rest

/-- The final metadata write of a successful edit:
`document.metadata.totalLines = document.lines.length`. -/
def withLines (d : Document) (ls : List Line) : Document :=
  { d with lines := ls,
           metadata := { d.metadata with totalLines := (ls.length : ℚ) } }

/-- Model of `executeDocEdit` from the tools module: validation (empty
target list, falsy `newText` for `replace`/`insert`), the locked-line
scan, then the per-operation mutation followed by the `totalLines`
update; the unknown-operation default returns before that update. -/
def executeDocEdit (params : EditParams) (document : Document) :
    EditResult × Document :=
  if params.lines = [] then
    ({ success := false, modifiedLines := [],
       error := some "No line numbers provided" }, document)
  else if (params.operation = "replace" ∨ params.operation = "insert") ∧
      jsFalsyText params.newText = true then
    ({ success := false, modifiedLines := [],
       error := some ("New text is required for " ++ params.operation
         ++ " operation") }, document)
  else if lockedTargets params document ≠ [] then
    ({ success := false, modifiedLines := [],
       error := some (lockedMessage (lockedTargets params document)) }, document)
  else if params.operation = "replace" then
    let p := replaceLoop (newTextValue params.newText) params.lines document.lines
    ({ success := true, modifiedLines := p.2, error := none },
     withLines document p.1)
  else if params.operation = "delete" then
    let modified :=
      (document.lines.filter (fun l => decide (l.lineNumber ∈ params.lines))).map
        (fun l => l.lineNumber)
    let kept := document.lines.filter (fun l => decide (l.lineNumber ∉ params.lines))
    ({ success := true, modifiedLines := modified, error := none },
     withLines document (renumberFrom 1 kept))
  else if params.operation = "insert" then
    let p := insertLoop (newTextValue params.newText) params.lines document.lines
    ({ success := true, modifiedLines := p.2, error := none },
     withLines document (renumberFrom 1 p.1))
  else
    ({ success := false, modifiedLines := [],
       error := some ("Unknown operation: " ++ params.operation) }, document)

/-- The store invariant from the data model: `lines[i].lineNumber == i+1`
for all `i`, and `metadata.totalLines == lines.length`. -/
def Contiguous (d : Document) : Prop :=
  (∀ i (h : i < d.lines.length),
    (d.lines.get ⟨i, h⟩).lineNumber = ((i + 1 : ℕ) : ℚ)) ∧
  d.metadata.totalLines = (d.lines.length : ℚ)

instance (d : Document) : Decidable (Contiguous d) := by
  unfold Contiguous; infer_instance

/-- Recursive form of the numbering invariant, starting at `k`. -/
def NumberedFrom : ℕ → List Line → Prop
  | _, [] => True
  | k, l :: rest => l.lineNumber = (k : ℚ) ∧ NumberedFrom (k + 1) rest

instance : ∀ k ls, Decidable (NumberedFrom k ls)
  | _, [] => .isTrue trivial
  | k, _ :: rest =>
    have := instDecidableNumberedFrom (k + 1) rest
    inferInstanceAs (Decidable (_ ∧ _))

/-- Occurrence count of a target number in a target list. -/
def countTargets (m : ℚ) : List ℚ → ℕ
  | [] => 0
  | n :: rest => (if n = m then 1 else 0) + countTargets m rest

/-- The line spliced after a target line `l` by the `insert` operation. -/
def splicedLine (t : String) (l : Line) : Line :=
  { lineNumber := l.lineNumber + half, text := t, pageNumber := l.pageNumber,
    isLocked := false, isPlaceholder := false }

/-- The shape of the store after the `insert` splice loop, before
renumbering: every original line, in order, followed by one copy of the
spliced line for each occurrence of its (pre-insert) number among the
targets. -/
def scatter (t : String) (targets : List ℚ) : List Line → List Line
  | [] => []
  | l :: rest =>
    l :: (List.replicate (countTargets l.lineNumber targets) (splicedLine t l)
      ++ scatter t targets rest)

/-- Everything of a line except its text (used to state that `replace`
does not touch numbering, page, or flags). -/
def lineFrame (l : Line) : ℚ × ℚ × Bool × Bool :=
  (l.lineNumber, l.pageNumber, l.isLocked, l.isPlaceholder)

/-- Everything of a line except its number (used to state that
renumbering does not touch text, page, or flags). -/
def lineShape (l : Line) : String × ℚ × Bool × Bool :=
  (l.text, l.pageNumber, l.isLocked, l.isPlaceholder)

/-- The lowercased-substring match test of the search loop. -/
def matchesQuery (queryLower : String) (l : Line) : Bool :=
  strIncludes (jsLower l.text) queryLower

/-- The search hit built for one matching line. -/
def hitOf (queryLower : String) (l : Line) : SearchResult :=
  { lineNumber := l.lineNumber, text := l.text,
    score := if jsLower l.text = queryLower then 1 else half }

/-- Test fixture: an unlocked line on page 1. -/
def mkLine (n : ℚ) (t : String) : Line :=
  ⟨n, t, 1, false, false⟩

/-- Test fixture: metadata with a given `totalLines`. -/
def mkMeta (n : ℚ) : DocumentMetadata :=
  ⟨n, 1, "markdown", none, none, none⟩

/-- Test fixture: a document whose `totalLines` equals the line count. -/
def mkDoc (ls : List Line) : Document :=
  ⟨"doc-1", ls, mkMeta (ls.length : ℚ)⟩

/-- Test fixture: a one-line document. -/
def docA : Document := mkDoc [mkLine 1 "A"]

/-- Test fixture: a two-line document. -/
def docAB : Document := mkDoc [mkLine 1 "A", mkLine 2 "B"]

/-- Test fixture: the three-line document of the spec scenarios. -/
def docABC : Document := mkDoc [mkLine 1 "A", mkLine 2 "B", mkLine 3 "C"]

/-- Test fixture: the search-scenario document of the spec. -/
def docSearch3 : Document := mkDoc [mkLine 1 "apple", mkLine 2 "Banana", mkLine 3 "cab"]

/-- Test fixture: a document whose lines are stored out of ascending
line-number order. -/
def docBxBy : Document := ⟨"doc-1", [mkLine 2 "bx", mkLine 1 "by"], mkMeta 2⟩

/-- Test fixture: a one-line document whose text contains a space. -/
def docSpace : Document := mkDoc [mkLine 1 " x"]

/-- Test fixture: a document whose only line is locked. -/
def lockedDoc : Document := mkDoc [⟨1, "A", 1, true, false⟩]

/-! ### The numbering invariant -/

theorem numberedFrom_iff_get (ls : List Line) :
    ∀ k : ℕ, NumberedFrom k ls ↔
      ∀ i (h : i < ls.length), (ls.get ⟨i, h⟩).lineNumber = ((k + i : ℕ) : ℚ) := by
  induction ls with
  | nil => intro k; simp [NumberedFrom]
  | cons l rest ih =>
    intro k
    constructor
    · rintro ⟨h1, h2⟩ i hi
      cases i with
      | zero => simpa using h1
      | succ j =>
        have hj : j < rest.length := by simpa using hi
        have := (ih (k + 1)).1 h2 j hj
        have e : k + 1 + j = k + (j + 1) := by omega
        simpa [e] using this
    · intro h
      refine ⟨by simpa using h 0 (by simp), (ih (k + 1)).2 ?_⟩
      intro j hj
      have := h (j + 1) (by simpa using Nat.succ_lt_succ hj)
      have e : k + (j + 1) = k + 1 + j := by omega
      simpa [e] using this

theorem contiguous_iff (d : Document) :
    Contiguous d ↔
      NumberedFrom 1 d.lines ∧ d.metadata.totalLines = (d.lines.length : ℚ) := by
  unfold Contiguous
  rw [numberedFrom_iff_get]
  constructor
  · rintro ⟨h1, h2⟩
    exact ⟨fun i h => by have := h1 i h; simpa [Nat.add_comm] using this, h2⟩
  · rintro ⟨h1, h2⟩
    exact ⟨fun i h => by have := h1 i h; simpa [Nat.add_comm] using this, h2⟩

theorem renumberFrom_length (ls : List Line) :
    ∀ k, (renumberFrom k ls).length = ls.length := by
  induction ls with
  | nil => intro k; rfl
  | cons l rest ih => intro k; simp [renumberFrom, ih]

theorem numberedFrom_renumberFrom (ls : List Line) :
    ∀ k, NumberedFrom k (renumberFrom k ls) := by
  induction ls with
  | nil => intro k; trivial
  | cons l rest ih => intro k; exact ⟨rfl, ih (k + 1)⟩

theorem renumberFrom_shape (ls : List Line) :
    ∀ k, (renumberFrom k ls).map lineShape = ls.map lineShape := by
  induction ls with
  | nil => intro k; rfl
  | cons l rest ih => intro k; simp [renumberFrom, lineShape, ih]

theorem renumberFrom_eq_self (ls : List Line) :
    ∀ k, NumberedFrom k ls → renumberFrom k ls = ls := by
  induction ls with
  | nil => intro k _; rfl
  | cons l rest ih =>
    rintro k ⟨h1, h2⟩
    unfold renumberFrom
    rw [ih (k + 1) h2]
    cases l
    simp_all

theorem numberedFrom_bound (ls : List Line) :
    ∀ k, NumberedFrom k ls → ∀ l ∈ ls, ∃ j : ℕ, k ≤ j ∧ l.lineNumber = (j : ℚ) := by
  induction ls with
  | nil => intro k _ l hl; cases hl
  | cons a rest ih =>
    rintro k ⟨h1, h2⟩ l hl
    rcases List.mem_cons.1 hl with rfl | hl
    · exact ⟨k, le_refl k, h1⟩
    · obtain ⟨j, hj, he⟩ := ih (k + 1) h2 l hl
      exact ⟨j, by omega, he⟩

theorem numberedFrom_int (ls : List Line) (k : ℕ) (h : NumberedFrom k ls) :
    ∀ l ∈ ls, ∃ z : ℤ, l.lineNumber = (z : ℚ) := by
  intro l hl
  obtain ⟨j, _, he⟩ := numberedFrom_bound ls k h l hl
  exact ⟨(j : ℤ), by push_cast [he]; ring⟩

theorem numberedFrom_nodup (ls : List Line) :
    ∀ k, NumberedFrom k ls → (ls.map (fun l => l.lineNumber)).Nodup := by
  induction ls with
  | nil => intro k _; simp
  | cons a rest ih =>
    rintro k ⟨h1, h2⟩
    simp only [List.map_cons, List.nodup_cons]
    refine ⟨?_, ih (k + 1) h2⟩
    intro hmem
    obtain ⟨l, hl, he⟩ := List.mem_map.1 hmem
    obtain ⟨j, hj, hje⟩ := numberedFrom_bound rest (k + 1) h2 l hl
    rw [h1, hje] at he
    have : k = j := by exact_mod_cast he.symm
    omega

theorem numberedFrom_of_map_eq (ls ls' : List Line)
    (h : ls.map (fun l => l.lineNumber) = ls'.map (fun l => l.lineNumber)) :
    ∀ k, NumberedFrom k ls → NumberedFrom k ls' := by
  induction ls generalizing ls' with
  | nil =>
    intro k _
    have : ls' = [] := by simpa using (List.map_eq_nil_iff).1 h.symm
    simp [this, NumberedFrom]
  | cons a rest ih =>
    intro k hn
    cases ls' with
    | nil => simp at h
    | cons b rest' =>
      simp only [List.map_cons, List.cons.injEq] at h
      exact ⟨h.1 ▸ hn.1, ih rest' h.2 (k + 1) hn.2⟩

/-! ### The replace loop -/

theorem replaceFirstText_none_iff (n : ℚ) (t : String) (ls : List Line) :
    replaceFirstText n t ls = none ↔ ∀ l ∈ ls, l.lineNumber ≠ n := by
  induction ls with
  | nil => simp [replaceFirstText]
  | cons a rest ih =>
    by_cases ha : a.lineNumber = n
    · simp [replaceFirstText, ha]
    · simp [replaceFirstText, ha, ih]

theorem replaceFirstText_cons_pos {n : ℚ} {t : String} {a : Line}
    {rest : List Line} (ha : a.lineNumber = n) :
    replaceFirstText n t (a :: rest) = some ({ a with text := t } :: rest) := by
  simp [replaceFirstText, ha]

theorem replaceFirstText_cons_neg {n : ℚ} {t : String} {a : Line}
    {rest : List Line} (ha : a.lineNumber ≠ n) :
    replaceFirstText n t (a :: rest) =
      (replaceFirstText n t rest).map (a :: ·) := by
  simp [replaceFirstText, ha]

theorem replaceFirstText_frame (n : ℚ) (t : String) (ls ls' : List Line)
    (h : replaceFirstText n t ls = some ls') :
    ls'.map lineFrame = ls.map lineFrame := by
  induction ls generalizing ls' with
  | nil => simp [replaceFirstText] at h
  | cons a rest ih =>
    by_cases ha : a.lineNumber = n
    · rw [replaceFirstText_cons_pos ha] at h
      injection h with h
      subst h
      simp [lineFrame]
    · rw [replaceFirstText_cons_neg ha] at h
      cases hr : replaceFirstText n t rest with
      | none => rw [hr] at h; simp at h
      | some ls'' =>
        rw [hr] at h
        injection h with h
        subst h
        simp [ih ls'' hr]

theorem replaceFirstText_eq_map (n : ℚ) (t : String) (ls : List Line)
    (hnd : (ls.map (fun l => l.lineNumber)).Nodup)
    (hmem : n ∈ ls.map (fun l => l.lineNumber)) :
    replaceFirstText n t ls =
      some (ls.map (fun l =>
        if l.lineNumber = n then { l with text := t } else l)) := by
  induction ls with
  | nil => simp at hmem
  | cons a rest ih =>
    simp only [List.map_cons, List.nodup_cons] at hnd
    by_cases ha : a.lineNumber = n
    · have hrest : ∀ l ∈ rest, l.lineNumber ≠ n := by
        intro l hl he
        apply hnd.1
        rw [ha, ← he]
        exact List.mem_map_of_mem (fun x => x.lineNumber) hl
      have hmap : rest.map (fun l =>
          if l.lineNumber = n then { l with text := t } else l) = rest :=
        (List.map_congr_left (fun l hl => by simp [hrest l hl])).trans (List.map_id rest)
      rw [replaceFirstText_cons_pos ha]
      simp [ha, hmap]
    · have hmem' : n ∈ rest.map (fun l => l.lineNumber) := by
        rcases List.mem_cons.1 hmem with h | h
        · exact absurd h.symm ha
        · exact h
      rw [replaceFirstText_cons_neg ha, ih hnd.2 hmem']
      simp [ha]

theorem replaceLoop_cons_some {n : ℚ} {t : String} {ls ls' : List Line}
    {rest : List ℚ} (h : replaceFirstText n t ls = some ls') :
    replaceLoop t (n :: rest) ls =
      ((replaceLoop t rest ls').1, n :: (replaceLoop t rest ls').2) := by
  conv_lhs => unfold replaceLoop
  rw [h]

theorem replaceLoop_cons_none {n : ℚ} {t : String} {ls : List Line}
    {rest : List ℚ} (h : replaceFirstText n t ls = none) :
    replaceLoop t (n :: rest) ls = replaceLoop t rest ls := by
  conv_lhs => unfold replaceLoop
  rw [h]

theorem replaceLoop_frame (t : String) (ts : List ℚ) :
    ∀ ls : List Line, (replaceLoop t ts ls).1.map lineFrame = ls.map lineFrame := by
  induction ts with
  | nil => intro ls; rfl
  | cons n rest ih =>
    intro ls
    unfold replaceLoop
    cases h : replaceFirstText n t ls with
    | none => exact ih ls
    | some ls' => simpa [ih ls'] using replaceFirstText_frame n t ls ls' h

theorem replaceLoop_map (t : String) (ts : List ℚ) :
    ∀ ls : List Line, (ls.map (fun l => l.lineNumber)).Nodup →
      replaceLoop t ts ls =
        (ls.map (fun l => if l.lineNumber ∈ ts then { l with text := t } else l),
         ts.filter (fun n => decide (n ∈ ls.map (fun l => l.lineNumber)))) := by
  induction ts with
  | nil =>
    intro ls _
    have : ls.map (fun l => if l.lineNumber ∈ ([] : List ℚ) then
        { l with text := t } else l) = ls :=
      (List.map_congr_left (fun l _ => by simp)).trans (List.map_id ls)
    simp [replaceLoop, this]
  | cons n rest ih =>
    intro ls hnd
    by_cases hmem : n ∈ ls.map (fun l => l.lineNumber)
    · have hsome := replaceFirstText_eq_map n t ls hnd hmem
      have hnum : (ls.map (fun l =>
            if l.lineNumber = n then { l with text := t } else l)).map
              (fun l => l.lineNumber) = ls.map (fun l => l.lineNumber) := by
        simp only [List.map_map]
        exact List.map_congr_left (fun l _ => by by_cases h : l.lineNumber = n <;> simp [h])
      rw [replaceLoop_cons_some hsome, ih _ (hnum ▸ hnd)]
      simp only [List.map_map, hnum, List.filter_cons, decide_eq_true hmem,
        Prod.mk.injEq]
      refine ⟨?_, rfl⟩
      exact List.map_congr_left (fun l _ => by
        by_cases h1 : l.lineNumber = n <;> by_cases h2 : l.lineNumber ∈ rest <;>
          simp [h1, h2])
    · have hnone := (replaceFirstText_none_iff n t ls).2 (fun l hl he =>
        hmem (he ▸ List.mem_map_of_mem (fun x => x.lineNumber) hl))
      rw [replaceLoop_cons_none hnone, ih ls hnd]
      simp only [Prod.mk.injEq]
      constructor
      · exact List.map_congr_left (fun l hl => by
          have hne : l.lineNumber ≠ n := fun he =>
            hmem (he ▸ List.mem_map_of_mem (fun x => x.lineNumber) hl)
          by_cases h2 : l.lineNumber ∈ rest <;> simp [hne, h2])
      · have hex : ¬ ∃ a ∈ ls, a.lineNumber = n := by
          simpa [List.mem_map] using hmem
        simp [List.filter_cons, hex]

theorem replaceLoop_miss (t : String) (ts : List ℚ) :
    ∀ ls : List Line, (∀ n ∈ ts, ∀ l ∈ ls, l.lineNumber ≠ n) →
      replaceLoop t ts ls = (ls, []) := by
  induction ts with
  | nil => intro ls _; rfl
  | cons n rest ih =>
    intro ls h
    have hnone := (replaceFirstText_none_iff n t ls).2 (h n (by simp))
    unfold replaceLoop
    rw [hnone]
    exact ih ls (fun m hm => h m (by simp [hm]))

/-! ### The read loop -/

theorem readLines_numbers (d : Document) (ns : List ℚ) :
    (readLines d ns).map (fun l => l.lineNumber) =
      ns.filter (fun n => decide (n ∈ d.lines.map (fun l => l.lineNumber))) := by
  induction ns with
  | nil => rfl
  | cons n rest ih =>
    unfold readLines
    cases h : d.lines.find? (fun l => l.lineNumber == n) with
    | some line =>
      have h1 : line.lineNumber = n := by simpa using List.find?_some h
      have h2 : n ∈ d.lines.map (fun l => l.lineNumber) :=
        h1 ▸ List.mem_map_of_mem (fun l => l.lineNumber) (List.mem_of_find?_eq_some h)
      have hex : ∃ a ∈ d.lines, a.lineNumber = n := by
        simpa [List.mem_map] using h2
      simp [List.filter_cons, hex, h1, ih]
    | none =>
      have h2 : n ∉ d.lines.map (fun l => l.lineNumber) := by
        intro hmem
        obtain ⟨l, hl, he⟩ := List.mem_map.1 hmem
        exact absurd (by simpa using he : (l.lineNumber == n) = true)
          (by simpa using List.find?_eq_none.1 h l hl)
      have hex : ¬ ∃ a ∈ d.lines, a.lineNumber = n := by
        simpa [List.mem_map] using h2
      simp [List.filter_cons, hex, ih]

theorem readLines_mem (d : Document) (ns : List ℚ) :
    ∀ l ∈ readLines d ns, l ∈ d.lines := by
  induction ns with
  | nil => intro l hl; cases hl
  | cons n rest ih =>
    intro l hl
    unfold readLines at hl
    cases h : d.lines.find? (fun x => x.lineNumber == n) with
    | some line =>
      rw [h] at hl
      rcases List.mem_cons.1 hl with rfl | hl'
      · exact List.mem_of_find?_eq_some h
      · exact ih l hl'
    | none =>
      rw [h] at hl
      exact ih l hl

/-! ### The insert loop -/

theorem half_eq : half = 1 / 2 := by
  norm_num [half, Rat.mkRat_eq_div]

theorem int_add_half_ne (z z' : ℤ) : (z : ℚ) + half ≠ (z' : ℚ) := by
  intro h
  rw [half_eq] at h
  have h' : ((2 * z + 1 : ℤ) : ℚ) = ((2 * z' : ℤ) : ℚ) := by
    push_cast
    linarith
  have h2 : (2 * z + 1 : ℤ) = 2 * z' := by exact_mod_cast h'
  omega

theorem insertAfterTarget_cons_pos {n : ℚ} {t : String} {a : Line}
    {rest : List Line} (ha : a.lineNumber = n) :
    insertAfterTarget n t (a :: rest) = some (a :: splicedLine t a :: rest) := by
  simp [insertAfterTarget, splicedLine, ha]

theorem insertAfterTarget_cons_neg {n : ℚ} {t : String} {a : Line}
    {rest : List Line} (ha : a.lineNumber ≠ n) :
    insertAfterTarget n t (a :: rest) =
      (insertAfterTarget n t rest).map (a :: ·) := by
  simp [insertAfterTarget, ha]

theorem insertAfterTarget_none_iff (n : ℚ) (t : String) (ls : List Line) :
    insertAfterTarget n t ls = none ↔ ∀ l ∈ ls, l.lineNumber ≠ n := by
  induction ls with
  | nil => simp [insertAfterTarget]
  | cons a rest ih =>
    by_cases ha : a.lineNumber = n
    · simp [insertAfterTarget, ha]
    · simp [insertAfterTarget, ha, ih]

theorem insertAfterTarget_append (n : ℚ) (t : String) (xs : List Line) :
    ∀ ys : List Line, (∀ x ∈ xs, x.lineNumber ≠ n) →
      insertAfterTarget n t (xs ++ ys) =
        (insertAfterTarget n t ys).map (xs ++ ·) := by
  induction xs with
  | nil =>
    intro ys _
    cases h : insertAfterTarget n t ys <;> simp [h]
  | cons a rest ih =>
    intro ys h
    have ha : a.lineNumber ≠ n := h a (by simp)
    rw [List.cons_append, insertAfterTarget_cons_neg ha,
      ih ys (fun x hx => h x (by simp [hx]))]
    cases hy : insertAfterTarget n t ys <;> simp [hy]

theorem insertLoop_cons_some {n : ℚ} {t : String} {ls ls' : List Line}
    {rest : List ℚ} (h : insertAfterTarget n t ls = some ls') :
    insertLoop t (n :: rest) ls =
      ((insertLoop t rest ls').1, n :: (insertLoop t rest ls').2) := by
  conv_lhs => unfold insertLoop
  rw [h]

theorem insertLoop_cons_none {n : ℚ} {t : String} {ls : List Line}
    {rest : List ℚ} (h : insertAfterTarget n t ls = none) :
    insertLoop t (n :: rest) ls = insertLoop t rest ls := by
  conv_lhs => unfold insertLoop
  rw [h]

theorem insertLoop_miss (t : String) (ts : List ℚ) :
    ∀ ls : List Line, (∀ n ∈ ts, ∀ l ∈ ls, l.lineNumber ≠ n) →
      insertLoop t ts ls = (ls, []) := by
  induction ts with
  | nil => intro ls _; rfl
  | cons n rest ih =>
    intro ls h
    rw [insertLoop_cons_none ((insertAfterTarget_none_iff n t ls).2 (h n (by simp)))]
    exact ih ls (fun m hm => h m (by simp [hm]))

theorem countTargets_append (m : ℚ) (ts1 ts2 : List ℚ) :
    countTargets m (ts1 ++ ts2) = countTargets m ts1 + countTargets m ts2 := by
  induction ts1 with
  | nil => simp [countTargets]
  | cons n rest ih => simp [countTargets, ih]; omega

theorem scatter_congr (t : String) (c1 c2 : List ℚ) :
    ∀ ls : List Line,
      (∀ l ∈ ls, countTargets l.lineNumber c1 = countTargets l.lineNumber c2) →
      scatter t c1 ls = scatter t c2 ls := by
  intro ls
  induction ls with
  | nil => intro _; rfl
  | cons a rest ih =>
    intro h
    unfold scatter
    rw [h a (by simp), ih (fun l hl => h l (by simp [hl]))]

theorem scatter_nil_targets (t : String) :
    ∀ ls : List Line, scatter t [] ls = ls := by
  intro ls
  induction ls with
  | nil => rfl
  | cons a rest ih => simp [scatter, countTargets, ih]

theorem insertAfterTarget_scatter (t : String) (n : ℚ) (done : List ℚ)
    (hn : ∃ z : ℤ, n = (z : ℚ)) :
    ∀ ls : List Line,
      (∀ l ∈ ls, ∃ z : ℤ, l.lineNumber = (z : ℚ)) →
      (ls.map (fun l => l.lineNumber)).Nodup →
      insertAfterTarget n t (scatter t done ls) =
        if n ∈ ls.map (fun l => l.lineNumber) then
          some (scatter t (done ++ [n]) ls)
        else none := by
  intro ls
  induction ls with
  | nil =>
    intro _ _
    simp [scatter, insertAfterTarget]
  | cons a rest ih =>
    intro hint hnd
    simp only [List.map_cons, List.nodup_cons] at hnd
    have hsplice : (splicedLine t a).lineNumber ≠ n := by
      obtain ⟨za, hza⟩ := hint a (by simp)
      obtain ⟨zn, hzn⟩ := hn
      simp only [splicedLine, hza, hzn]
      exact int_add_half_ne za zn
    by_cases ha : a.lineNumber = n
    · have hrestcount : scatter t (done ++ [n]) rest = scatter t done rest := by
        apply scatter_congr
        intro l hl
        rw [countTargets_append]
        have hln : l.lineNumber ≠ n := by
          intro he
          exact hnd.1 (ha ▸ he ▸ List.mem_map_of_mem (fun x => x.lineNumber) hl)
        have hln' : ¬ n = l.lineNumber := fun h => hln h.symm
        simp [countTargets, hln']
      rw [show scatter t done (a :: rest) = a ::
          (List.replicate (countTargets a.lineNumber done) (splicedLine t a)
            ++ scatter t done rest) from rfl]
      rw [insertAfterTarget_cons_pos ha]
      have hcount : countTargets a.lineNumber (done ++ [n]) =
          countTargets a.lineNumber done + 1 := by
        rw [countTargets_append]
        simp [countTargets, ha]
      rw [if_pos (by simp [← ha])]
      rw [show scatter t (done ++ [n]) (a :: rest) = a ::
          (List.replicate (countTargets a.lineNumber (done ++ [n])) (splicedLine t a)
            ++ scatter t (done ++ [n]) rest) from rfl]
      rw [hcount, hrestcount, List.replicate_succ]
      simp
    · rw [show scatter t done (a :: rest) = a ::
          (List.replicate (countTargets a.lineNumber done) (splicedLine t a)
            ++ scatter t done rest) from rfl]
      rw [insertAfterTarget_cons_neg ha,
        insertAfterTarget_append n t _ _ (by
          intro x hx
          rw [List.eq_of_mem_replicate hx]
          exact hsplice)]
      rw [ih (fun l hl => hint l (by simp [hl])) hnd.2]
      have hna : ¬ n = a.lineNumber := fun h => ha h.symm
      by_cases hmem : n ∈ rest.map (fun l => l.lineNumber)
      · rw [if_pos hmem, if_pos (by simp [hmem])]
        have hcount : countTargets a.lineNumber (done ++ [n]) =
            countTargets a.lineNumber done := by
          rw [countTargets_append]
          simp [countTargets, hna]
        rw [show scatter t (done ++ [n]) (a :: rest) = a ::
            (List.replicate (countTargets a.lineNumber (done ++ [n])) (splicedLine t a)
              ++ scatter t (done ++ [n]) rest) from rfl]
        simp [hcount]
      · rw [if_neg hmem, if_neg (by simp [hmem, hna])]
        rfl

theorem insertLoop_scatter (t : String) :
    ∀ (targets done : List ℚ) (ls : List Line),
      (∀ n ∈ targets, ∃ z : ℤ, n = (z : ℚ)) →
      (∀ l ∈ ls, ∃ z : ℤ, l.lineNumber = (z : ℚ)) →
      (ls.map (fun l => l.lineNumber)).Nodup →
      insertLoop t targets (scatter t done ls) =
        (scatter t (done ++ targets) ls,
         targets.filter (fun n => decide (n ∈ ls.map (fun l => l.lineNumber)))) := by
  intro targets
  induction targets with
  | nil =>
    intro done ls _ _ _
    simp [insertLoop]
  | cons n rest ih =>
    intro done ls htar hint hnd
    have hone := insertAfterTarget_scatter t n done (htar n (by simp)) ls hint hnd
    by_cases hmem : n ∈ ls.map (fun l => l.lineNumber)
    · rw [if_pos hmem] at hone
      rw [insertLoop_cons_some hone,
        ih (done ++ [n]) ls (fun m hm => htar m (by simp [hm])) hint hnd]
      have hex : ∃ a ∈ ls, a.lineNumber = n := by
        simpa [List.mem_map] using hmem
      simp [List.filter_cons, hex]
    · rw [if_neg hmem] at hone
      rw [insertLoop_cons_none hone,
        ih done ls (fun m hm => htar m (by simp [hm])) hint hnd]
      have hsc : scatter t (done ++ n :: rest) ls = scatter t (done ++ rest) ls := by
        apply scatter_congr
        intro l hl
        rw [countTargets_append, countTargets_append]
        have hln : ¬ n = l.lineNumber := by
          intro he
          exact hmem (he.symm ▸ List.mem_map_of_mem (fun x => x.lineNumber) hl)
        simp [countTargets, hln]
      rw [hsc]
      have hex : ¬ ∃ a ∈ ls, a.lineNumber = n := by
        simpa [List.mem_map] using hmem
      simp [List.filter_cons, hex]

/-! ### The search pipeline -/

theorem half_ne_one : half ≠ 1 := by
  norm_num [half_eq]

theorem half_le_one : half ≤ 1 := by
  norm_num [half_eq]

theorem not_one_le_half : ¬ (1 : ℚ) ≤ half := by
  norm_num [half_eq]

theorem searchHits_eq (q : String) (ls : List Line) :
    searchHits q ls = (ls.filter (matchesQuery q)).map (hitOf q) := by
  induction ls with
  | nil => rfl
  | cons a rest ih =>
    by_cases ha : matchesQuery q a
    · have ha2 : strIncludes (jsLower a.text) q = true := ha
      simp [searchHits, matchesQuery, hitOf, List.filter_cons, ha2, ih]
    · have ha2 : ¬ strIncludes (jsLower a.text) q = true := ha
      simp [searchHits, matchesQuery, List.filter_cons, ha2, ih]

theorem orderedInsert_skip (x : SearchResult) (E : List SearchResult) :
    ∀ P : List SearchResult, (∀ y ∈ E, ¬ scoreGE x y) →
      List.orderedInsert scoreGE x (E ++ P) =
        E ++ List.orderedInsert scoreGE x P := by
  induction E with
  | nil => intro P _; rfl
  | cons y E ih =>
    intro P h
    have hy : ¬ scoreGE x y := h y (by simp)
    rw [List.cons_append]
    simp only [List.orderedInsert, if_neg hy]
    rw [ih P (fun z hz => h z (by simp [hz]))]
    rfl

theorem insertionSort_two_valued :
    ∀ rs : List SearchResult, (∀ r ∈ rs, r.score = 1 ∨ r.score = half) →
      List.insertionSort scoreGE rs =
        rs.filter (fun r => decide (r.score = 1)) ++
          rs.filter (fun r => ! decide (r.score = 1)) := by
  intro rs
  induction rs with
  | nil => intro _; rfl
  | cons x rs ih =>
    intro h
    have hrs : ∀ r ∈ rs, r.score = 1 ∨ r.score = half :=
      fun r hr => h r (by simp [hr])
    rw [show List.insertionSort scoreGE (x :: rs) =
      List.orderedInsert scoreGE x (List.insertionSort scoreGE rs) from rfl, ih hrs]
    rcases h x (by simp) with hx | hx
    · have hfront : List.orderedInsert scoreGE x
          (rs.filter (fun r => decide (r.score = 1)) ++
            rs.filter (fun r => ! decide (r.score = 1))) =
          x :: (rs.filter (fun r => decide (r.score = 1)) ++
            rs.filter (fun r => ! decide (r.score = 1))) := by
        cases hEP : rs.filter (fun r => decide (r.score = 1)) ++
            rs.filter (fun r => ! decide (r.score = 1)) with
        | nil => simp [List.orderedInsert]
        | cons b l' =>
          have hb : b ∈ rs := by
            have : b ∈ rs.filter (fun r => decide (r.score = 1)) ++
                rs.filter (fun r => ! decide (r.score = 1)) := by simp [hEP]
            rcases List.mem_append.1 this with h' | h' <;>
              exact List.mem_of_mem_filter h'
          have hxb : scoreGE x b := by
            rcases hrs b hb with h1 | h1 <;>
              simp [scoreGE, h1, hx, half_le_one]
          simp [List.orderedInsert, hxb]
      rw [hfront]
      simp [List.filter_cons, hx]
    · have hxne : ¬ x.score = 1 := by
        rw [hx]; exact half_ne_one
      have hskip : ∀ y ∈ rs.filter (fun r => decide (r.score = 1)),
          ¬ scoreGE x y := by
        intro y hy
        have hy1 : y.score = 1 := by
          simpa using (List.mem_filter.1 hy).2
        simp [scoreGE, hy1, hx, not_one_le_half]
      have hmid : List.orderedInsert scoreGE x
          (rs.filter (fun r => ! decide (r.score = 1))) =
          x :: rs.filter (fun r => ! decide (r.score = 1)) := by
        cases hP : rs.filter (fun r => ! decide (r.score = 1)) with
        | nil => simp [List.orderedInsert]
        | cons c l' =>
          have hc : c ∈ rs.filter (fun r => ! decide (r.score = 1)) := by
            simp [hP]
          have hcs : ¬ c.score = 1 := by
            simpa using (List.mem_filter.1 hc).2
          have hcscore : c.score = half :=
            (hrs c (List.mem_of_mem_filter hc)).resolve_left hcs
          have hxc : scoreGE x c := by
            simp [scoreGE, hcscore, hx]
          simp [List.orderedInsert, hxc]
      rw [orderedInsert_skip x _ _ hskip, hmid]
      simp [List.filter_cons, hxne]

theorem searchHits_scores (q : String) (ls : List Line) :
    ∀ r ∈ searchHits q ls, r.score = 1 ∨ r.score = half := by
  rw [searchHits_eq]
  intro r hr
  obtain ⟨l, _, rfl⟩ := List.mem_map.1 hr
  by_cases h : jsLower l.text = q <;> simp [hitOf, h]

theorem executeDocSearch_of_trim (query : String) (d : Document) (limit : Int)
    (hq : jsTrim query ≠ "") :
    executeDocSearch query d limit =
      jsSliceTo (searchSorted query d) (min limit 20) := by
  simp [executeDocSearch, hq]

theorem searchSorted_eq (query : String) (d : Document) :
    searchSorted query d =
      ((d.lines.filter (matchesQuery (jsLower query))).filter
          (fun l => decide (jsLower l.text = jsLower query))).map (hitOf (jsLower query)) ++
        ((d.lines.filter (matchesQuery (jsLower query))).filter
          (fun l => ! decide (jsLower l.text = jsLower query))).map (hitOf (jsLower query)) := by
  unfold searchSorted
  rw [insertionSort_two_valued _ (searchHits_scores (jsLower query) d.lines),
    searchHits_eq, List.filter_map, List.filter_map]
  congr 1
  · congr 1
    apply List.filter_congr
    intro l _
    by_cases h : jsLower l.text = jsLower query <;>
      simp [hitOf, Function.comp, h, half_ne_one]
  · congr 1
    apply List.filter_congr
    intro l _
    by_cases h : jsLower l.text = jsLower query <;>
      simp [hitOf, Function.comp, h, half_ne_one]

/-! ### Branch analysis of the edit executor -/

theorem edit_success_inv (p : EditParams) (d : Document)
    (hs : (executeDocEdit p d).1.success = true) :
    p.lines ≠ [] ∧
    ¬((p.operation = "replace" ∨ p.operation = "insert") ∧
      jsFalsyText p.newText = true) ∧
    lockedTargets p d = [] := by
  unfold executeDocEdit at hs
  by_cases h1 : p.lines = []
  · rw [if_pos h1] at hs; simp at hs
  · rw [if_neg h1] at hs
    by_cases h2 : (p.operation = "replace" ∨ p.operation = "insert") ∧
        jsFalsyText p.newText = true
    · rw [if_pos h2] at hs; simp at hs
    · rw [if_neg h2] at hs
      by_cases h3 : lockedTargets p d ≠ []
      · rw [if_pos h3] at hs; simp at hs
      · exact ⟨h1, h2, not_ne_iff.1 h3⟩

theorem executeDocEdit_replace_eq (p : EditParams) (d : Document)
    (hop : p.operation = "replace") (h1 : p.lines ≠ [])
    (h2 : ¬((p.operation = "replace" ∨ p.operation = "insert") ∧
      jsFalsyText p.newText = true))
    (h3 : lockedTargets p d = []) :
    executeDocEdit p d =
      ({ success := true,
         modifiedLines := (replaceLoop (newTextValue p.newText) p.lines d.lines).2,
         error := none },
       withLines d (replaceLoop (newTextValue p.newText) p.lines d.lines).1) := by
  unfold executeDocEdit
  rw [if_neg h1, if_neg h2, if_neg (not_ne_iff.2 h3), if_pos hop]

theorem executeDocEdit_delete_eq (p : EditParams) (d : Document)
    (hop : p.operation = "delete") (h1 : p.lines ≠ [])
    (h2 : ¬((p.operation = "replace" ∨ p.operation = "insert") ∧
      jsFalsyText p.newText = true))
    (h3 : lockedTargets p d = []) :
    executeDocEdit p d =
      ({ success := true,
         modifiedLines := (d.lines.filter
           (fun l => decide (l.lineNumber ∈ p.lines))).map (fun l => l.lineNumber),
         error := none },
       withLines d (renumberFrom 1
         (d.lines.filter (fun l => decide (l.lineNumber ∉ p.lines))))) := by
  unfold executeDocEdit
  rw [if_neg h1, if_neg h2, if_neg (not_ne_iff.2 h3),
    if_neg (by rw [hop]; decide), if_pos hop]

theorem executeDocEdit_insert_eq (p : EditParams) (d : Document)
    (hop : p.operation = "insert") (h1 : p.lines ≠ [])
    (h2 : ¬((p.operation = "replace" ∨ p.operation = "insert") ∧
      jsFalsyText p.newText = true))
    (h3 : lockedTargets p d = []) :
    executeDocEdit p d =
      ({ success := true,
         modifiedLines := (insertLoop (newTextValue p.newText) p.lines d.lines).2,
         error := none },
       withLines d (renumberFrom 1
         (insertLoop (newTextValue p.newText) p.lines d.lines).1)) := by
  unfold executeDocEdit
  rw [if_neg h1, if_neg h2, if_neg (not_ne_iff.2 h3),
    if_neg (by rw [hop]; decide), if_neg (by rw [hop]; decide), if_pos hop]

theorem newTextValue_of_not_falsy {o : Option String} {t : String}
    (ht : o = some t) (h : jsFalsyText o = false) : newTextValue o = t := by
  subst ht
  simp only [jsFalsyText] at h
  simp [newTextValue, h]

theorem withLines_self (d : Document)
    (h : d.metadata.totalLines = (d.lines.length : ℚ)) :
    withLines d d.lines = d := by
  cases d with
  | mk id lines metadata =>
    cases metadata
    simp_all [withLines]

theorem map_lineNumber_of_frame_eq (ls ls' : List Line)
    (h : ls.map lineFrame = ls'.map lineFrame) :
    ls.map (fun l => l.lineNumber) = ls'.map (fun l => l.lineNumber) := by
  have h2 := congrArg (List.map (fun x : ℚ × ℚ × Bool × Bool => x.1)) h
  simpa [List.map_map, Function.comp, lineFrame] using h2

theorem jsSliceTo_sublist {α : Type} (xs : List α) (e : Int) :
    (jsSliceTo xs e).Sublist xs := by
  unfold jsSliceTo
  split_ifs <;> exact List.take_sublist _ _

theorem contiguous_executeDocEdit (p : EditParams) (d : Document)
    (hd : Contiguous d) : Contiguous (executeDocEdit p d).2 := by
  rw [contiguous_iff] at hd ⊢
  obtain ⟨hnf, hml⟩ := hd
  unfold executeDocEdit
  split_ifs with h1 h2 h3 h4 h5 h6
  · exact ⟨hnf, hml⟩
  · exact ⟨hnf, hml⟩
  · exact ⟨hnf, hml⟩
  · refine ⟨?_, by simp [withLines]⟩
    have hframe := replaceLoop_frame (newTextValue p.newText) p.lines d.lines
    have hnum := map_lineNumber_of_frame_eq _ _ hframe
    exact numberedFrom_of_map_eq _ _ hnum.symm 1 hnf
  · exact ⟨numberedFrom_renumberFrom _ 1, by simp [withLines]⟩
  · exact ⟨numberedFrom_renumberFrom _ 1, by simp [withLines]⟩
  · exact ⟨hnf, hml⟩

/-! ### Claim theorems -/

/-- Claim C1 counterexample: with a locked target but a missing `newText`, the
call still fails with the document untouched, yet the reported error is
the `newText` validation message, not one naming the locked lines. -/
theorem C1_counterexample :
    lockedTargets ⟨"replace", [1], none⟩ lockedDoc = [1] ∧
    executeDocEdit ⟨"replace", [1], none⟩ lockedDoc =
      ({ success := false, modifiedLines := [],
         error := some "New text is required for replace operation" }, lockedDoc) ∧
    some "New text is required for replace operation" ≠
      some (lockedMessage [1]) := by
  decide

/-- Claim C1 (amended): whenever some targeted line number resolves to a locked
line, `executeDocEdit` returns `success = false` with `modifiedLines = []`
and leaves the document exactly unchanged; additionally, provided the call
passes argument validation (the `newText` check), the error is the message
naming the locked line numbers. -/
theorem C1_locked_abort (p : EditParams) (d : Document)
    (hl : lockedTargets p d ≠ []) :
    (executeDocEdit p d).1.success = false ∧
    (executeDocEdit p d).1.modifiedLines = [] ∧
    (executeDocEdit p d).2 = d ∧
    (¬((p.operation = "replace" ∨ p.operation = "insert") ∧
        jsFalsyText p.newText = true) →
      (executeDocEdit p d).1.error =
        some (lockedMessage (lockedTargets p d))) := by
  have h1 : p.lines ≠ [] := by
    intro h
    apply hl
    unfold lockedTargets
    rw [h]
    rfl
  unfold executeDocEdit
  rw [if_neg h1]
  by_cases h2 : (p.operation = "replace" ∨ p.operation = "insert") ∧
      jsFalsyText p.newText = true
  · rw [if_pos h2]
    exact ⟨rfl, rfl, rfl, fun hc => absurd h2 hc⟩
  · rw [if_neg h2, if_pos hl]
    exact ⟨rfl, rfl, rfl, fun _ => rfl⟩

/-- Claim C1 witness: the locked-line scenario of the spec (line 1 locked,
`replace [1] "x"`). -/
theorem C1_locked_abort_witness :
    (executeDocEdit ⟨"replace", [1], some "x"⟩ lockedDoc).1.success = false ∧
    (executeDocEdit ⟨"replace", [1], some "x"⟩ lockedDoc).1.modifiedLines = [] ∧
    (executeDocEdit ⟨"replace", [1], some "x"⟩ lockedDoc).2 = lockedDoc ∧
    (executeDocEdit ⟨"replace", [1], some "x"⟩ lockedDoc).1.error =
      some "Cannot edit locked lines: 1" := by
  have h := C1_locked_abort ⟨"replace", [1], some "x"⟩ lockedDoc (by decide)
  refine ⟨h.1, h.2.1, h.2.2.1, ?_⟩
  rw [h.2.2.2 (by decide)]
  decide

/-- Claim C2: the contiguity invariant (`lines[i].lineNumber = i+1` and
`metadata.totalLines = lines.length`) is preserved by every `doc_edit`
call, successful or not. -/
theorem C2_contiguity_preserved (p : EditParams) (d : Document)
    (hd : Contiguous d) : Contiguous (executeDocEdit p d).2 :=
  contiguous_executeDocEdit p d hd

/-- Claim C2 witness: the invariant holds after deleting line 2 of the
three-line scenario document. -/
theorem C2_contiguity_preserved_witness :
    Contiguous (executeDocEdit ⟨"delete", [2], none⟩ docABC).2 :=
  C2_contiguity_preserved ⟨"delete", [2], none⟩ docABC (by decide)

/-- Claim C3 counterexample: `doc_read [2, 1]` on the two-line document returns
the lines in caller order `[2, 1]`, not in ascending line-number order as
the claim states. -/
theorem C3_counterexample :
    (executeDocRead [2, 1] docAB).success = true ∧
    (executeDocRead [2, 1] docAB).lines.map (fun l => l.lineNumber) = [2, 1] ∧
    ¬ List.Sorted (· ≤ ·)
      ((executeDocRead [2, 1] docAB).lines.map (fun l => l.lineNumber)) := by
  decide

/-- Claim C3 (amended): for a non-empty request list `executeDocRead` succeeds
with no error and returns, for each requested number in the
caller-supplied order (not sorted), the first document line with that
number, silently omitting numbers that match no line; the returned lines
all come from the document, and only an empty request list fails. -/
theorem C3_read_caller_order (d : Document) (nums : List ℚ) (h : nums ≠ []) :
    (executeDocRead nums d).success = true ∧
    (executeDocRead nums d).error = none ∧
    (executeDocRead nums d).lines.map (fun l => l.lineNumber) =
      nums.filter (fun n => decide (n ∈ d.lines.map (fun l => l.lineNumber))) ∧
    (∀ l ∈ (executeDocRead nums d).lines, l ∈ d.lines) ∧
    (executeDocRead [] d).success = false := by
  refine ⟨?_, ?_, ?_, ?_, ?_⟩
  · simp [executeDocRead, h]
  · simp [executeDocRead, h]
  · rw [show (executeDocRead nums d).lines = readLines d nums from by
      simp [executeDocRead, h]]
    exact readLines_numbers d nums
  · rw [show (executeDocRead nums d).lines = readLines d nums from by
      simp [executeDocRead, h]]
    exact readLines_mem d nums
  · rfl

/-- Claim C3 witness: reading `[2, 1]` from the two-line document yields the
lines numbered 2 then 1, in caller order. -/
theorem C3_read_caller_order_witness :
    (executeDocRead [2, 1] docAB).lines.map (fun l => l.lineNumber) = [2, 1] := by
  have h := C3_read_caller_order docAB [2, 1] (by decide)
  rw [h.2.2.1]
  decide

/-- Claim C4 counterexample: with limit 0 the search returns nothing, while the
default limit 5 returns the matching line, so a non-positive limit is not
treated as the default. -/
theorem C4_counterexample :
    executeDocSearch "a" docA 0 = [] ∧
    executeDocSearch "a" docA defaultSearchLimit =
      [{ lineNumber := 1, text := "A", score := 1 }] ∧
    ([] : List SearchResult) ≠ [{ lineNumber := 1, text := "A", score := 1 }] := by
  decide

/-- Claim C4 (amended): a limit of 20 or more is clamped to 20 (so at most 20
results are returned there); a non-positive limit is *not* treated as the
default 5: limit 0 returns the empty list, and a negative limit behaves
like JavaScript `slice(0, limit)`, dropping that many results from the
end of the sorted match list. -/
theorem C4_limit_clamped (query : String) (d : Document) :
    (∀ limit : Int, 20 ≤ limit →
      executeDocSearch query d limit = executeDocSearch query d 20) ∧
    (executeDocSearch query d 20).length ≤ 20 ∧
    executeDocSearch query d 0 = [] ∧
    (∀ limit : Int, limit < 0 →
      executeDocSearch query d limit =
        if jsTrim query = "" then []
        else jsSliceTo (searchSorted query d) limit) := by
  by_cases hq : jsTrim query = ""
  · refine ⟨fun limit _ => by simp [executeDocSearch, hq], ?_, ?_, ?_⟩
    · simp [executeDocSearch, hq]
    · simp [executeDocSearch, hq]
    · intro limit _
      simp [executeDocSearch, hq]
  · refine ⟨?_, ?_, ?_, ?_⟩
    · intro limit hlim
      rw [executeDocSearch_of_trim query d limit hq,
        executeDocSearch_of_trim query d 20 hq,
        min_eq_right hlim, show min (20 : Int) 20 = 20 from by decide]
    · rw [executeDocSearch_of_trim query d 20 hq,
        show min (20 : Int) 20 = 20 from by decide]
      unfold jsSliceTo
      rw [if_neg (by decide)]
      simp
    · rw [executeDocSearch_of_trim query d 0 hq,
        show min (0 : Int) 20 = 0 from by decide]
      unfold jsSliceTo
      rw [if_neg (by decide)]
      simp
    · intro limit hlim
      rw [executeDocSearch_of_trim query d limit hq, if_neg hq,
        min_eq_left (by omega)]

/-- Claim C4 witness: limit 25 is clamped to 20, and limit 0 gives no results
on a document where the default limit finds a match. -/
theorem C4_limit_clamped_witness :
    executeDocSearch "a" docA 25 = executeDocSearch "a" docA 20 ∧
    executeDocSearch "a" docA 0 = [] :=
  ⟨(C4_limit_clamped "a" docA).1 25 (by decide),
   (C4_limit_clamped "a" docA).2.2.1⟩

/-- Claim C5 counterexample: `replace` with `newText = ""` on an unlocked
document is rejected with the missing-`newText` validation error instead
of being applied. -/
theorem C5_counterexample :
    executeDocEdit ⟨"replace", [1], some ""⟩ docAB =
      ({ success := false, modifiedLines := [],
         error := some "New text is required for replace operation" }, docAB) := by
  decide

/-- Claim C5 (amended): for `replace` and `insert`, a present but empty-string
`newText` is treated as missing (JavaScript falsiness) and the call is
rejected with the missing-`newText` error, leaving the document
unchanged; the operation is not applied. -/
theorem C5_empty_newText_rejected (p : EditParams) (d : Document)
    (hop : p.operation = "replace" ∨ p.operation = "insert")
    (ht : p.newText = some "") (hne : p.lines ≠ []) :
    executeDocEdit p d =
      ({ success := false, modifiedLines := [],
         error := some ("New text is required for " ++ p.operation
           ++ " operation") }, d) := by
  unfold executeDocEdit
  rw [if_neg hne, if_pos ⟨hop, by simp [jsFalsyText, ht]⟩]

/-- Claim C5 witness: the empty-string rejection at a concrete `insert` call. -/
theorem C5_empty_newText_rejected_witness :
    executeDocEdit ⟨"insert", [1], some ""⟩ docAB =
      ({ success := false, modifiedLines := [],
         error := some "New text is required for insert operation" }, docAB) := by
  have h := C5_empty_newText_rejected ⟨"insert", [1], some ""⟩ docAB
    (Or.inr rfl) rfl (by decide)
  exact h.trans (by decide)

/-- Claim C6: a successful `replace` sets the text of every line whose number
appears in the (uniquely numbered) store to the single batch-wide
`newText`, skips target numbers that resolve to no line, reports exactly
the resolved targets in target order, and leaves every line's
`lineNumber`, `pageNumber` and flags unchanged. -/
theorem C6_replace_semantics (p : EditParams) (d : Document) (t : String)
    (hop : p.operation = "replace") (ht : p.newText = some t)
    (hnd : (d.lines.map (fun l => l.lineNumber)).Nodup)
    (hs : (executeDocEdit p d).1.success = true) :
    (executeDocEdit p d).2.lines =
      d.lines.map (fun l =>
        if l.lineNumber ∈ p.lines then { l with text := t } else l) ∧
    (executeDocEdit p d).1.modifiedLines =
      p.lines.filter (fun n => decide (n ∈ d.lines.map (fun l => l.lineNumber))) ∧
    (executeDocEdit p d).2.lines.map lineFrame = d.lines.map lineFrame ∧
    (executeDocEdit p d).1.error = none := by
  obtain ⟨h1, h2, h3⟩ := edit_success_inv p d hs
  have hfal : jsFalsyText p.newText = false := by
    have hne : ¬ jsFalsyText p.newText = true := fun hb => h2 ⟨Or.inl hop, hb⟩
    simpa using hne
  have htv : newTextValue p.newText = t := newTextValue_of_not_falsy ht hfal
  have heq := executeDocEdit_replace_eq p d hop h1 h2 h3
  have hloop := replaceLoop_map (newTextValue p.newText) p.lines d.lines hnd
  rw [htv] at heq hloop
  rw [heq]
  refine ⟨?_, ?_, ?_, rfl⟩
  · simp only [withLines, hloop]
  · simp only [hloop]
  · simp only [withLines, hloop, List.map_map]
    apply List.map_congr_left
    intro l _
    by_cases h : l.lineNumber ∈ p.lines <;> simp [lineFrame, Function.comp, h]

/-- Claim C6 witness: `replace [1, 3] "Z"` on the three-line scenario document
rewrites lines 1 and 3 and keeps line 2. -/
theorem C6_replace_semantics_witness :
    (executeDocEdit ⟨"replace", [1, 3], some "Z"⟩ docABC).2.lines =
      [mkLine 1 "Z", mkLine 2 "B", mkLine 3 "Z"] ∧
    (executeDocEdit ⟨"replace", [1, 3], some "Z"⟩ docABC).1.modifiedLines =
      [1, 3] := by
  have h := C6_replace_semantics ⟨"replace", [1, 3], some "Z"⟩ docABC "Z"
    rfl rfl (by decide) (by decide)
  exact ⟨h.1.trans (by decide), h.2.1.trans (by decide)⟩

/-- Claim C7: a successful `delete` on a contiguous store removes exactly the
lines whose number is in the target set, keeps the remaining lines in
order with text, page and flags untouched, renumbers them contiguously
from 1 (restoring the invariant, totalLines included), and reports the
deleted pre-renumbering numbers. -/
theorem C7_delete_semantics (p : EditParams) (d : Document)
    (hop : p.operation = "delete") (hd : Contiguous d)
    (hs : (executeDocEdit p d).1.success = true) :
    (executeDocEdit p d).2.lines.map lineShape =
      (d.lines.filter (fun l => decide (l.lineNumber ∉ p.lines))).map lineShape ∧
    Contiguous (executeDocEdit p d).2 ∧
    (executeDocEdit p d).1.modifiedLines =
      (d.lines.filter (fun l => decide (l.lineNumber ∈ p.lines))).map
        (fun l => l.lineNumber) ∧
    (executeDocEdit p d).1.error = none := by
  obtain ⟨h1, h2, h3⟩ := edit_success_inv p d hs
  have heq := executeDocEdit_delete_eq p d hop h1 h2 h3
  refine ⟨?_, ?_, ?_, ?_⟩
  · rw [heq]
    simp only [withLines]
    exact renumberFrom_shape _ 1
  · exact contiguous_executeDocEdit p d hd
  · rw [heq]
  · rw [heq]

/-- Claim C7 witness: the delete scenario of the spec,
`[{1,A},{2,B},{3,C}] → delete [2] → [{1,A},{2,C}]` with `totalLines = 2`. -/
theorem C7_delete_semantics_witness :
    (executeDocEdit ⟨"delete", [2], none⟩ docABC).2.lines =
      [mkLine 1 "A", mkLine 2 "C"] ∧
    (executeDocEdit ⟨"delete", [2], none⟩ docABC).2.metadata.totalLines = 2 ∧
    (executeDocEdit ⟨"delete", [2], none⟩ docABC).1.modifiedLines = [2] := by
  have h := C7_delete_semantics ⟨"delete", [2], none⟩ docABC rfl
    (by decide) (by decide)
  refine ⟨by decide, ?_, h.2.2.1.trans (by decide)⟩
  have h2 := (contiguous_iff _).1 h.2.1
  rw [h2.2]
  decide

/-- Claim C8: a successful `insert` on a contiguous store with integral targets
splices, after every line whose pre-insert number occurs in the target
list, one new line per occurrence carrying the batch `newText`, the
target line's `pageNumber`, and cleared flags (targets are resolved
against the pre-insert numbering), then renumbers the whole store
contiguously from 1; the resolved targets are reported in target order. -/
theorem C8_insert_semantics (p : EditParams) (d : Document) (t : String)
    (hop : p.operation = "insert") (ht : p.newText = some t)
    (hd : Contiguous d)
    (hz : ∀ n ∈ p.lines, ∃ z : ℤ, n = (z : ℚ))
    (hs : (executeDocEdit p d).1.success = true) :
    (executeDocEdit p d).2.lines = renumberFrom 1 (scatter t p.lines d.lines) ∧
    Contiguous (executeDocEdit p d).2 ∧
    (executeDocEdit p d).1.modifiedLines =
      p.lines.filter (fun n => decide (n ∈ d.lines.map (fun l => l.lineNumber))) := by
  obtain ⟨h1, h2, h3⟩ := edit_success_inv p d hs
  have hfal : jsFalsyText p.newText = false := by
    have hne : ¬ jsFalsyText p.newText = true := fun hb => h2 ⟨Or.inr hop, hb⟩
    simpa using hne
  have htv : newTextValue p.newText = t := newTextValue_of_not_falsy ht hfal
  have hnf : NumberedFrom 1 d.lines := ((contiguous_iff d).1 hd).1
  have hloop : insertLoop t p.lines d.lines =
      (scatter t p.lines d.lines,
       p.lines.filter (fun n => decide (n ∈ d.lines.map (fun l => l.lineNumber)))) := by
    have := insertLoop_scatter t p.lines [] d.lines hz
      (numberedFrom_int d.lines 1 hnf) (numberedFrom_nodup d.lines 1 hnf)
    rw [scatter_nil_targets] at this
    simpa using this
  have heq := executeDocEdit_insert_eq p d hop h1 h2 h3
  rw [heq]
  refine ⟨?_, ?_, ?_⟩
  · simp only [withLines, htv, hloop]
  · rw [← heq]
    exact contiguous_executeDocEdit p d hd
  · simp only [htv, hloop]

/-- Claim C8 witness: the insert scenario of the spec,
`[{1,A},{2,B}] → insert [1] "X" → [{1,A},{2,X},{3,B}]`. -/
theorem C8_insert_semantics_witness :
    (executeDocEdit ⟨"insert", [1], some "X"⟩ docAB).2.lines =
      [mkLine 1 "A", mkLine 2 "X", mkLine 3 "B"] ∧
    (executeDocEdit ⟨"insert", [1], some "X"⟩ docAB).1.modifiedLines = [1] := by
  have h := C8_insert_semantics ⟨"insert", [1], some "X"⟩ docAB "X" rfl rfl
    (by decide)
    (by
      intro n hn
      refine ⟨1, ?_⟩
      have : n = (1 : ℚ) := by simpa using hn
      rw [this]
      norm_num)
    (by decide)
  refine ⟨h.1.trans ?_, h.2.2.trans (by decide)⟩
  decide

/-- Claim C9 counterexample: the whitespace query `" "` is non-empty but is
trimmed to nothing and returns no results even though a line matches it,
and on a document stored out of ascending order the 0.5-score tie is
returned in document order `[2, 1]`, not ascending line-number order. -/
theorem C9_counterexample :
    executeDocSearch " " docSpace 5 = [] ∧
    matchesQuery (jsLower " ") (mkLine 1 " x") = true ∧
    (executeDocSearch "b" docBxBy 5).map (fun r => r.lineNumber) = [2, 1] ∧
    ¬ List.Sorted (· ≤ ·)
      ((executeDocSearch "b" docBxBy 5).map (fun r => r.lineNumber)) := by
  decide

/-- Claim C9 (amended): for every query that survives trimming and every
document whose lines are in ascending line-number order (as the store
invariant guarantees), `executeDocSearch` returns exactly the lines whose
lowercased text contains the lowercased query — full matches (score 1)
first, partial matches (score 0.5) after, each group in ascending
line-number order — sliced to `min limit 20`; the output is sorted by
descending score with score ties in ascending line-number order.
Whitespace-only queries instead return the empty list. -/
theorem C9_search_semantics (query : String) (d : Document) (limit : Int)
    (hq : jsTrim query ≠ "")
    (hasc : d.lines.Pairwise (fun a b => a.lineNumber ≤ b.lineNumber)) :
    executeDocSearch query d limit =
      jsSliceTo
        (((d.lines.filter (matchesQuery (jsLower query))).filter
            (fun l => decide (jsLower l.text = jsLower query))).map
              (hitOf (jsLower query)) ++
         ((d.lines.filter (matchesQuery (jsLower query))).filter
            (fun l => ! decide (jsLower l.text = jsLower query))).map
              (hitOf (jsLower query)))
        (min limit 20) ∧
    (executeDocSearch query d limit).Pairwise
      (fun a b => b.score ≤ a.score ∧
        (a.score = b.score → a.lineNumber ≤ b.lineNumber)) := by
  have e1 : executeDocSearch query d limit =
      jsSliceTo (searchSorted query d) (min limit 20) :=
    executeDocSearch_of_trim query d limit hq
  constructor
  · rw [e1, searchSorted_eq]
  · rw [e1, searchSorted_eq]
    apply List.Pairwise.sublist (jsSliceTo_sublist _ _)
    rw [List.pairwise_append]
    refine ⟨?_, ?_, ?_⟩
    · rw [List.pairwise_map]
      refine List.Pairwise.imp_of_mem ?_ ((hasc.filter _).filter _)
      intro a b ha hb hab
      have ha1 : jsLower a.text = jsLower query := by
        simpa using (List.mem_filter.1 ha).2
      have hb1 : jsLower b.text = jsLower query := by
        simpa using (List.mem_filter.1 hb).2
      constructor
      · simp [hitOf, ha1, hb1]
      · intro _
        simpa [hitOf] using hab
    · rw [List.pairwise_map]
      refine List.Pairwise.imp_of_mem ?_ ((hasc.filter _).filter _)
      intro a b ha hb hab
      have ha1 : ¬ jsLower a.text = jsLower query := by
        simpa using (List.mem_filter.1 ha).2
      have hb1 : ¬ jsLower b.text = jsLower query := by
        simpa using (List.mem_filter.1 hb).2
      constructor
      · simp [hitOf, ha1, hb1]
      · intro _
        simpa [hitOf] using hab
    · intro a ha b hb
      obtain ⟨la, hla, rfl⟩ := List.mem_map.1 ha
      obtain ⟨lb, hlb, rfl⟩ := List.mem_map.1 hb
      have ha1 : jsLower la.text = jsLower query := by
        simpa using (List.mem_filter.1 hla).2
      have hb1 : ¬ jsLower lb.text = jsLower query := by
        simpa using (List.mem_filter.1 hlb).2
      constructor
      · simp [hitOf, ha1, hb1, half_le_one]
      · intro he
        exfalso
        simp only [hitOf, if_pos ha1, if_neg hb1] at he
        exact half_ne_one he.symm

/-- Claim C9 witness: the search scenario of the spec — `doc_search "b"` on
`[{1,"apple"},{2,"Banana"},{3,"cab"}]` returns lines 2 and 3 with score
0.5 each, in ascending order, excluding line 1. -/
theorem C9_search_semantics_witness :
    executeDocSearch "b" docSearch3 5 =
      [{ lineNumber := 2, text := "Banana", score := half },
       { lineNumber := 3, text := "cab", score := half }] := by
  have h := C9_search_semantics "b" docSearch3 5 (by decide) (by decide)
  exact h.1.trans (by decide)

/-- Claim C10: a validated `doc_edit` call (non-empty targets, `newText`
present and non-empty where required, a known operation) on a contiguous
store in which no targeted number matches any line succeeds with
`modifiedLines = []` and returns the document exactly unchanged. -/
theorem C10_missing_targets_noop (p : EditParams) (d : Document)
    (hd : Contiguous d)
    (hop : p.operation = "replace" ∨ p.operation = "insert" ∨
      p.operation = "delete")
    (h1 : p.lines ≠ [])
    (h2 : ¬((p.operation = "replace" ∨ p.operation = "insert") ∧
      jsFalsyText p.newText = true))
    (hmiss : ∀ n ∈ p.lines, n ∉ d.lines.map (fun l => l.lineNumber)) :
    executeDocEdit p d =
      ({ success := true, modifiedLines := [], error := none }, d) := by
  have hmiss' : ∀ n ∈ p.lines, ∀ l ∈ d.lines, l.lineNumber ≠ n := by
    intro n hn l hl he
    exact hmiss n hn (he ▸ List.mem_map_of_mem (fun x => x.lineNumber) hl)
  have h3 : lockedTargets p d = [] := by
    unfold lockedTargets
    rw [List.filter_eq_nil_iff]
    intro n hn
    have hfind : d.lines.find? (fun l => l.lineNumber == n) = none :=
      List.find?_eq_none.2 (fun l hl => by simpa using hmiss' n hn l hl)
    simp [hfind]
  have hnf : NumberedFrom 1 d.lines := ((contiguous_iff d).1 hd).1
  have hml : d.metadata.totalLines = (d.lines.length : ℚ) :=
    ((contiguous_iff d).1 hd).2
  rcases hop with hop | hop | hop
  · rw [executeDocEdit_replace_eq p d hop h1 h2 h3,
      replaceLoop_miss _ _ _ hmiss']
    simp [withLines_self d hml]
  · rw [executeDocEdit_insert_eq p d hop h1 h2 h3,
      insertLoop_miss _ _ _ hmiss']
    simp [renumberFrom_eq_self _ 1 hnf, withLines_self d hml]
  · rw [executeDocEdit_delete_eq p d hop h1 h2 h3]
    have hk : d.lines.filter (fun l => decide (l.lineNumber ∉ p.lines)) =
        d.lines := by
      rw [List.filter_eq_self]
      intro l hl
      simp only [decide_eq_true_eq]
      intro hmem
      exact hmiss l.lineNumber hmem
        (List.mem_map_of_mem (fun x => x.lineNumber) hl)
    have hm : d.lines.filter (fun l => decide (l.lineNumber ∈ p.lines)) =
        [] := by
      rw [List.filter_eq_nil_iff]
      intro l hl
      simp only [decide_eq_true_eq]
      intro hmem
      exact hmiss l.lineNumber hmem
        (List.mem_map_of_mem (fun x => x.lineNumber) hl)
    rw [hk, hm, renumberFrom_eq_self _ 1 hnf, withLines_self d hml]
    simp

/-- Claim C10 witness: replacing the nonexistent line 5 of the three-line
scenario document succeeds and changes nothing. -/
theorem C10_missing_targets_noop_witness :
    executeDocEdit ⟨"replace", [5], some "x"⟩ docABC =
      ({ success := true, modifiedLines := [], error := none }, docABC) :=
  C10_missing_targets_noop ⟨"replace", [5], some "x"⟩ docABC (by decide)
    (Or.inl rfl) (by decide) (by decide) (by decide)

end ClauseCraft
